import Mathlib

/-
Verification of the recovery-parsing and sanitization pipeline of
`functions/api/objects.js` (final variant of the file; the two-phase
variant's sanitizer is embedded separately as `cleanObjectsPhase2`).

JavaScript strings are modelled as Lean `String` and their contents
as `List Char`; `JSON.parse` is modelled by an executable JSON parser
(`jsonParse`) that follows the JSON grammar accepted by the host
function: strict literals, no trailing content, escape sequences in
strings, numbers kept as their source lexeme (no claim depends on
numeric value beyond zero-ness).  JavaScript values reachable in the
pipeline are modelled by `Json` plus an `undefined` marker (`JsVal`).
-/

namespace Vibe

/-! ### JavaScript string primitives -/

/-- Whitespace for JavaScript `trim` and `\s` (the ASCII cases; the
exotic Unicode space code points never occur in this repository's data). -/
def isJsWs (c : Char) : Bool :=
  c = ' ' || c = '\t' || c = '\n' || c = '\r' || c = Char.ofNat 11 || c = Char.ofNat 12

/-- Drop trailing whitespace characters. -/
def dropTrailingWs : List Char → List Char
  | [] => []
  | c :: cs =>
    match dropTrailingWs cs with
    | [] => if isJsWs c then [] else [c]
    | d :: ds => c :: d :: ds

def trimList (cs : List Char) : List Char :=
  dropTrailingWs (cs.dropWhile isJsWs)

/-- Model of `String.prototype.trim`. -/
def jsTrim (s : String) : String := String.mk (trimList s.data)

/-- Model of `String.prototype.toLowerCase` (ASCII case mapping; the
Czech names with diacritics used by the source are already lower case). -/
def jsToLower (s : String) : String := String.mk (s.data.map Char.toLower)

/-- First index of a character, as in `String.prototype.indexOf`
(`none` models the JavaScript result `-1`). -/
def idxOfChar (c : Char) : List Char → Nat → Option Nat
  | [], _ => none
  | x :: xs, i => if x = c then some i else idxOfChar c xs (i + 1)

/-- Last index of a character, as in `String.prototype.lastIndexOf`. -/
def lastIdxOfChar (c : Char) : List Char → Nat → Option Nat → Option Nat
  | [], _, best => best
  | x :: xs, i, best => lastIdxOfChar c xs (i + 1) (if x = c then some i else best)

/-- `s.slice(i, j)` on characters. -/
def sliceStr (s : String) (i j : Nat) : String :=
  String.mk ((s.data.drop i).take (j - i))

def headIs (c : Char) : List Char → Bool
  | x :: _ => x = c
  | [] => false

/-- `s.startsWith(c)` for a one-character prefix. -/
def sStartsWith (s : String) (c : Char) : Bool := headIs c s.data

/-- `s.endsWith(c)` for a one-character suffix. -/
def sEndsWith (s : String) (c : Char) : Bool := headIs c s.data.reverse

/-- One pass of `String.prototype.replace` with a global literal
pattern: left-to-right, non-overlapping (fuel-bounded; the wrapper
passes enough fuel for the whole input). -/
def replaceAllFuel (pat rep : List Char) : Nat → List Char → List Char
  | 0, s => s
  | _, [] => []
  | fuel+1, c :: cs =>
    if pat.isPrefixOf (c :: cs) && !pat.isEmpty then
      rep ++ replaceAllFuel pat rep fuel ((c :: cs).drop pat.length)
    else
      c :: replaceAllFuel pat rep fuel cs

def replaceAll (pat rep s : List Char) : List Char :=
  replaceAllFuel pat rep (s.length + 1) s

/-- `replace(/\s+/g, " ")`: collapse every whitespace run to one space.
The flag records whether the previous character was whitespace. -/
def collapseWsAux : Bool → List Char → List Char
  | _, [] => []
  | prevWs, c :: cs =>
    if isJsWs c then
      if prevWs then collapseWsAux true cs else ' ' :: collapseWsAux true cs
    else c :: collapseWsAux false cs

def collapseWs (cs : List Char) : List Char := collapseWsAux false cs

/-- `split(/[...]/)` on a set of separator characters (adjacent
separators produce empty fragments, as in JavaScript). -/
def splitOnAny (seps : List Char) : List Char → List Char → List (List Char)
  | [], acc => [acc.reverse]
  | c :: cs, acc =>
    if seps.contains c then acc.reverse :: splitOnAny seps cs []
    else splitOnAny seps cs (c :: acc)

/-! ### JSON values and the model of `JSON.parse` -/

inductive Json where
  | null : Json
  | bool : Bool → Json
  | num : String → Json
  | str : String → Json
  | arr : List Json → Json
  | obj : List (String × Json) → Json

def obrace : Char := Char.ofNat 123
def cbrace : Char := Char.ofNat 125
def squote : Char := Char.ofNat 39

/-- JSON-grammar whitespace. -/
def isJsonWs (c : Char) : Bool :=
  c = ' ' || c = '\t' || c = '\n' || c = '\r'

def skipWs (cs : List Char) : List Char := cs.dropWhile isJsonWs

def hexVal (c : Char) : Option Nat :=
  if '0' ≤ c ∧ c ≤ '9' then some (c.toNat - 48)
  else if 'a' ≤ c ∧ c ≤ 'f' then some (c.toNat - 87)
  else if 'A' ≤ c ∧ c ≤ 'F' then some (c.toNat - 55)
  else none

def consScan (c : Char) (r : Option (List Char × List Char)) : Option (List Char × List Char) :=
  r.map (fun p => (c :: p.1, p.2))

/-- Decode a `\uXXXX` code unit.  A lone surrogate half becomes the
NUL character (`Char.ofNat` rejects it); the repository's data never
contains surrogate escapes, so this approximation is inert. -/
def charOfHex (a b c d : Nat) : Char :=
  Char.ofNat (a * 4096 + b * 256 + c * 16 + d)

/-- String body after the opening quote, per the JSON grammar: plain
characters above `0x1f`, escape sequences, closing quote. -/
def parseStrBody : List Char → Option (List Char × List Char)
  | [] => none
  | c :: cs =>
    if c = '"' then some ([], cs)
    else if c = '\\' then
      match cs with
      | [] => none
      | e :: cs2 =>
        if e = '"' then consScan '"' (parseStrBody cs2)
        else if e = '\\' then consScan '\\' (parseStrBody cs2)
        else if e = '/' then consScan '/' (parseStrBody cs2)
        else if e = 'b' then consScan (Char.ofNat 8) (parseStrBody cs2)
        else if e = 'f' then consScan (Char.ofNat 12) (parseStrBody cs2)
        else if e = 'n' then consScan '\n' (parseStrBody cs2)
        else if e = 'r' then consScan '\r' (parseStrBody cs2)
        else if e = 't' then consScan '\t' (parseStrBody cs2)
        else if e = 'u' then
          match cs2 with
          | h1 :: h2 :: h3 :: h4 :: cs3 =>
            match hexVal h1, hexVal h2, hexVal h3, hexVal h4 with
            | some a, some b, some c', some d =>
              consScan (charOfHex a b c' d) (parseStrBody cs3)
            | _, _, _, _ => none
          | _ => none
        else none
    else if c.toNat < 32 then none
    else consScan c (parseStrBody cs)

def isDigit (c : Char) : Bool := '0' ≤ c && c ≤ '9'

/-- Optional fraction part `.digits`. -/
def parseFrac (cs : List Char) : Option (List Char × List Char) :=
  match cs with
  | c :: rest =>
    if c = '.' then
      let fs := rest.takeWhile isDigit
      if fs.isEmpty then none else some (c :: fs, rest.drop fs.length)
    else some ([], cs)
  | [] => some ([], cs)

/-- Optional exponent part `[eE][+-]?digits`. -/
def parseExp (cs : List Char) : Option (List Char × List Char) :=
  match cs with
  | c :: rest =>
    if c = 'e' ∨ c = 'E' then
      let sgnStep : List Char × List Char :=
        match rest with
        | d :: r3 => if d = '+' ∨ d = '-' then ([d], r3) else ([], rest)
        | [] => ([], rest)
      let es := sgnStep.2.takeWhile isDigit
      if es.isEmpty then none
      else some (c :: (sgnStep.1 ++ es), sgnStep.2.drop es.length)
    else some ([], cs)
  | [] => some ([], cs)

/-- A JSON number lexeme `-?(0|[1-9]\d*)(\.\d+)?([eE][+-]?\d+)?`,
returned verbatim. -/
def parseNum (cs : List Char) : Option (List Char × List Char) :=
  let signStep : List Char × List Char :=
    match cs with
    | c :: rest => if c = '-' then ([c], rest) else ([], cs)
    | [] => ([], cs)
  let ds := signStep.2.takeWhile isDigit
  if ds.isEmpty then none
  else if ds.length > 1 && headIs '0' ds then none
  else
    let r2 := signStep.2.drop ds.length
    match parseFrac r2 with
    | none => none
    | some (fr, r3) =>
      match parseExp r3 with
      | none => none
      | some (ex, r4) => some (signStep.1 ++ ds ++ fr ++ ex, r4)

/-- Array elements after the first has been located: value, then
`,` or `]`, fuel-bounded iteration. -/
def parseElemsAux (pv : List Char → Option (Json × List Char)) :
    Nat → List Char → List Json → Option (List Json × List Char)
  | 0, _, _ => none
  | fuel+1, cs, acc =>
    match pv cs with
    | none => none
    | some (v, rest) =>
      match skipWs rest with
      | c :: r2 =>
        if c = ',' then parseElemsAux pv fuel r2 (acc ++ [v])
        else if c = ']' then some (acc ++ [v], r2)
        else none
      | [] => none

/-- Object members: `"key" : value`, then `,` or the closing brace. -/
def parseMembersAux (pv : List Char → Option (Json × List Char)) :
    Nat → List Char → List (String × Json) → Option (List (String × Json) × List Char)
  | 0, _, _ => none
  | fuel+1, cs, acc =>
    match skipWs cs with
    | c :: r1 =>
      if c = '"' then
        match parseStrBody r1 with
        | none => none
        | some (key, r2) =>
          match skipWs r2 with
          | d :: r3 =>
            if d = ':' then
              match pv r3 with
              | none => none
              | some (v, r4) =>
                match skipWs r4 with
                | e :: r5 =>
                  if e = ',' then parseMembersAux pv fuel r5 (acc ++ [(String.mk key, v)])
                  else if e = cbrace then some (acc ++ [(String.mk key, v)], r5)
                  else none
                | [] => none
            else none
          | [] => none
      else none
    | [] => none

/-- One JSON value and the remaining input.  Fuel bounds the nesting
depth; `jsonParse` passes more fuel than any input can consume. -/
def parseVal : Nat → List Char → Option (Json × List Char)
  | 0, _ => none
  | fuel+1, cs0 =>
    match skipWs cs0 with
    | [] => none
    | c :: rest =>
      if c = '"' then
        match parseStrBody rest with
        | some (content, r) => some (Json.str (String.mk content), r)
        | none => none
      else if c = obrace then
        match skipWs rest with
        | d :: r2 =>
          if d = cbrace then some (Json.obj [], r2)
          else
            match parseMembersAux (parseVal fuel) (rest.length + 1) rest [] with
            | some (kvs, r) => some (Json.obj kvs, r)
            | none => none
        | [] => none
      else if c = '[' then
        match skipWs rest with
        | d :: r2 =>
          if d = ']' then some (Json.arr [], r2)
          else
            match parseElemsAux (parseVal fuel) (rest.length + 1) rest [] with
            | some (xs, r) => some (Json.arr xs, r)
            | none => none
        | [] => none
      else
        match skipWs cs0 with
        | 'n' :: 'u' :: 'l' :: 'l' :: r => some (Json.null, r)
        | 't' :: 'r' :: 'u' :: 'e' :: r => some (Json.bool true, r)
        | 'f' :: 'a' :: 'l' :: 's' :: 'e' :: r => some (Json.bool false, r)
        | other =>
          match parseNum other with
          | some (lex, r) => some (Json.num (String.mk lex), r)
          | none => none

/-- Model of `JSON.parse`: one value, optional surrounding whitespace,
no trailing content; `none` models a thrown `SyntaxError`. -/
def jsonParse (s : String) : Option Json :=
  match parseVal (s.data.length + 1) s.data with
  | some (v, rest) => if (skipWs rest).isEmpty then some v else none
  | none => none

/-! ### JavaScript values reachable in the pipeline -/

/-- A JavaScript value as seen by the pipeline: a JSON-shaped value or
`undefined` (the result of a missing property). -/
inductive JsVal where
  | undef : JsVal
  | val : Json → JsVal

/-- Is a numeric lexeme zero (every mantissa digit is `0`)? -/
def numLexIsZero (lex : String) : Bool :=
  (lex.data.takeWhile (fun c => !(c = 'e' || c = 'E'))).all
    (fun c => c = '0' || c = '-' || c = '.')

/-- JavaScript truthiness of a JSON-shaped value. -/
def jsTruthy : Json → Bool
  | Json.null => false
  | Json.bool b => b
  | Json.num lex => !numLexIsZero lex
  | Json.str s => !s.isEmpty
  | Json.arr _ => true
  | Json.obj _ => true

/-- Does `typeof v === "object"` hold? (`null`, plain objects and
arrays; the guard `!o` in the source separately excludes `null`.) -/
def typeofObject : Json → Bool
  | Json.null => true
  | Json.obj _ => true
  | Json.arr _ => true
  | _ => false

/-- Property lookup in an object literal: later duplicate keys win,
as they do when `JSON.parse` builds the object. -/
def objLookup (kvs : List (String × Json)) (k : String) : Option Json :=
  kvs.foldl (fun acc p => if p.1 = k then some p.2 else acc) none

/-- `v.k` for a JSON-shaped value: a field of an object, `undefined`
everywhere else (strings, numbers and arrays have no such property). -/
def getProp (j : Json) (k : String) : JsVal :=
  match j with
  | Json.obj kvs =>
    match objLookup kvs k with
    | some v => JsVal.val v
    | none => JsVal.undef
  | _ => JsVal.undef

/-- `v?.k`: optional chaining also maps `undefined`/`null` receivers
to `undefined`. -/
def getPropV : JsVal → String → JsVal
  | JsVal.undef, _ => JsVal.undef
  | JsVal.val j, k => getProp j k

/-- Is the value `null` or `undefined` (the test of `??`)? -/
def nullish : JsVal → Bool
  | JsVal.undef => true
  | JsVal.val Json.null => true
  | _ => false

/-- The `??` operator. -/
def coalesce (a b : JsVal) : JsVal := if nullish a then b else a

/-- `s.includes(pat)`: substring containment. -/
def hasSubstr (pat : List Char) : List Char → Bool
  | [] => pat.isEmpty
  | c :: cs => pat.isPrefixOf (c :: cs) || hasSubstr pat cs

/-! ### `tryParseJsonFromText` (objects.js lines 731-795, final variant) -/

/-- The unescape chain used by strategies 3 and 4:
`\r\n`, `\n`, `\t`, `\"`, `\'`, `\\` replaced globally in that order. -/
def jsUnescape (cs : List Char) : List Char :=
  replaceAll ['\\', '\\']  ['\\'] <|
  replaceAll ['\\', squote] [squote] <|
  replaceAll ['\\', '"'] ['"'] <|
  replaceAll ['\\', 't'] ['\t'] <|
  replaceAll ['\\', 'n'] ['\n'] <|
  replaceAll ['\\', 'r', '\\', 'n'] ['\n'] cs

/-- The strategy ladder of `tryParseJsonFromText`, with the recursive
call of the quoted-string unwrap abstracted as `recurse`:
1. direct `JSON.parse` of the trimmed text;
2. if wrapped in matching straight or single quotes, parse, and when
   the result is a string recurse on it (kept when truthy);
3. if the text contains `\"` (the source tests eight redundant
   variants of that marker), unescape and parse;
4. substring from the first open brace to the last close brace,
   parsed directly and then unescaped. -/
def tryParseBody (recurse : String → Option Json) (text : String) : Option Json :=
  let s := jsTrim text
  match jsonParse s with
  | some v => some v
  | none =>
    let step2 : Option Json :=
      if (sStartsWith s '"' && sEndsWith s '"') || (sStartsWith s squote && sEndsWith s squote) then
        match jsonParse s with
        | some (Json.str inner) =>
          match recurse inner with
          | some r => if jsTruthy r then some r else none
          | none => none
        | _ => none
      else none
    match step2 with
    | some r => some r
    | none =>
      let marker : List Char := ['\\', '"']
      let hasEscapes :=
        hasSubstr marker s.data || hasSubstr marker s.data ||
        hasSubstr (obrace :: marker) s.data ||
        hasSubstr (marker ++ "objects".data ++ marker) s.data ||
        hasSubstr (marker ++ "caption".data ++ marker) s.data ||
        hasSubstr (marker ++ "name".data ++ marker) s.data ||
        hasSubstr (marker ++ "confidence".data ++ marker) s.data ||
        hasSubstr marker s.data
      let step3 : Option Json :=
        if hasEscapes then jsonParse (String.mk (jsUnescape s.data)) else none
      match step3 with
      | some r => some r
      | none =>
        match idxOfChar obrace s.data 0, lastIdxOfChar cbrace s.data 0 none with
        | some start, some stop =>
          if start < stop then
            let sub := sliceStr s start (stop + 1)
            match jsonParse sub with
            | some v => some v
            | none => jsonParse (String.mk (jsUnescape sub.data))
          else none
        | _, _ => none

/-- Fuel-indexed unfolding of the (syntactically unbounded) recursion
of `tryParseJsonFromText`. -/
def tryParseAux : Nat → String → Option Json
  | 0, _ => none
  | fuel+1, text => tryParseBody (tryParseAux fuel) text

/-- The body of `tryParseJsonFromText` after its type guard, with
ample fuel for the recursion. -/
def tryParseCore (text : String) : Option Json :=
  tryParseAux (text.length + 1) text

/-- `tryParseJsonFromText` including the guard
`if (!text || typeof text !== "string") return null`. -/
def tryParseJsonFromText : JsVal → Option Json
  | JsVal.val (Json.str s) => if s.isEmpty then none else tryParseCore s
  | _ => none

/-! The four rungs of the ladder as standalone functions, each the
verbatim chunk of `tryParseJsonFromText` it names, used to state that
the body is their left-to-right short-circuit chain. -/

/-- Strategy 1: direct `JSON.parse` of the trimmed text. -/
def strategyDirect (text : String) : Option Json := jsonParse (jsTrim text)

/-- Strategy 2: quoted-string unwrap — if wrapped in matching straight
or single quotes, parse, and when that yields a string run the
recovery ladder (`recurse`) on it, keeping a truthy result. -/
def strategyQuoted (recurse : String → Option Json) (text : String) : Option Json :=
  if (sStartsWith (jsTrim text) '"' && sEndsWith (jsTrim text) '"') ||
      (sStartsWith (jsTrim text) squote && sEndsWith (jsTrim text) squote) then
    match jsonParse (jsTrim text) with
    | some (Json.str inner) =>
      match recurse inner with
      | some r => if jsTruthy r then some r else none
      | none => none
    | _ => none
  else none

/-- The escape-marker test of strategy 3: the source's eight
redundant `includes` checks, every one containing `\"`. -/
def hasEscapeMarkers (s : String) : Bool :=
  hasSubstr ['\\', '"'] s.data || hasSubstr ['\\', '"'] s.data ||
  hasSubstr (obrace :: ['\\', '"']) s.data ||
  hasSubstr (['\\', '"'] ++ "objects".data ++ ['\\', '"']) s.data ||
  hasSubstr (['\\', '"'] ++ "caption".data ++ ['\\', '"']) s.data ||
  hasSubstr (['\\', '"'] ++ "name".data ++ ['\\', '"']) s.data ||
  hasSubstr (['\\', '"'] ++ "confidence".data ++ ['\\', '"']) s.data ||
  hasSubstr ['\\', '"'] s.data

/-- Strategy 3: escape-sequence repair — when the trimmed text carries
escape markers, unescape the whole of it and parse. -/
def strategyEscape (text : String) : Option Json :=
  if hasEscapeMarkers (jsTrim text) then
    jsonParse (String.mk (jsUnescape (jsTrim text).data))
  else none

/-- Strategy 4: brace extraction — the substring from the first open
brace to the last close brace, parsed directly and then unescaped. -/
def strategyBrace (text : String) : Option Json :=
  match idxOfChar obrace (jsTrim text).data 0, lastIdxOfChar cbrace (jsTrim text).data 0 none with
  | some start, some stop =>
    if start < stop then
      match jsonParse (sliceStr (jsTrim text) start (stop + 1)) with
      | some v => some v
      | none => jsonParse (String.mk (jsUnescape (sliceStr (jsTrim text) start (stop + 1)).data))
    else none
  | _, _ => none

/-! ### `cleanObjects` (objects.js lines 797-829, final variant) -/

structure CleanEntry where
  name : String
  confidence : String
deriving DecidableEq, Repr

/-- `typeof o.k === "string" ? o.k.trim() : ""`. -/
def strFieldTrimmed (o : Json) (k : String) : String :=
  match getProp o k with
  | JsVal.val (Json.str s) => jsTrim s
  | _ => ""

/-- The entry's `name` as computed by the sanitizer. -/
def nameOf (o : Json) : String := strFieldTrimmed o "name"

def confidenceTriple : List String := ["low", "medium", "high"]

/-- `typeof o.confidence === "string" ? o.confidence.trim() : ""`. -/
def confRaw (v : JsVal) : String :=
  match v with
  | JsVal.val (Json.str s) => jsTrim s
  | _ => ""

/-- Confidence normalization of the final sanitizer: trim when a
string (else empty), lowercase, and default anything outside
`low`/`medium`/`high` to `low`. -/
def normalizeConfidence (v : JsVal) : String :=
  if confidenceTriple.contains (jsToLower (confRaw v)) then jsToLower (confRaw v) else "low"

/-- `name === "..." || lower === "xxx" || lower === "object"`. -/
def isLiteralJunk (name : String) : Bool :=
  name = "..." || jsToLower name = "xxx" || jsToLower name = "object"

def abstractNames : List String := ["scéna", "prostředí", "pozadí", "situace"]

/-- The `["scéna","prostředí","pozadí","situace"].includes(lower)` test. -/
def isAbstract (lower : String) : Bool := abstractNames.contains lower

/-- The per-entry part of the final `cleanObjects` loop: every
`continue` of the source becomes `none`.  Confidence is computed by
`normalizeConfidence`; in the source the lowercase/default step sits
between the junk and abstract checks, which is observationally the
same for a pure computation. -/
def sanitizeEntry (o : Json) : Option CleanEntry :=
  if jsTruthy o && typeofObject o then
    if nameOf o = "" then none
    else if isLiteralJunk (nameOf o) then none
    else if isAbstract (jsToLower (nameOf o)) then none
    else some (CleanEntry.mk (nameOf o) (normalizeConfidence (getProp o "confidence")))
  else none

/-- The accumulator loop shared by both sanitizers' deduplication and
by the fallback extractor: keep an element when no kept element has
the same key. -/
def dedupByGo {α : Type} (key : α → String) (out : List α) : List α → List α
  | [] => out
  | x :: xs =>
    if out.any (fun y => key y == key x) then dedupByGo key out xs
    else dedupByGo key (out ++ [x]) xs

/-- The key of the sanitizers' de-dup check:
`x.name.toLowerCase() === lower`. -/
def entryKey (e : CleanEntry) : String := jsToLower e.name

/-- The sanitizer loop: per-entry gates (`f`), then the case-insensitive
first-wins de-dup against the entries already kept. -/
def cleanGoWith (f : Json → Option CleanEntry) (out : List CleanEntry) :
    List Json → List CleanEntry
  | [] => out
  | o :: os =>
    match f o with
    | none => cleanGoWith f out os
    | some e =>
      if out.any (fun y => entryKey y == entryKey e) then cleanGoWith f out os
      else cleanGoWith f (out ++ [e]) os

/-- `cleanObjects` of the final variant. -/
def cleanObjects (objects : List Json) : List CleanEntry :=
  cleanGoWith sanitizeEntry [] objects

/-! ### `cleanObjects` of the two-phase variant (objects.js lines 548-594) -/

def echoPhrases : List String :=
  ["konkrétní český název", "konkretni cesky nazev", "český název",
   "cesky nazev", "název objektu", "nazev objektu"]

def bannedNames : List String :=
  ["máma", "mama", "děti", "dite", "dítě", "rodina", "rodiče", "rodice",
   "pláž", "plaz", "dovolená", "dovolena", "turista", "moře", "more",
   "oceán", "ocean"]

/-- Does the lowercased name contain an instruction-echo phrase? -/
def hasEchoPhrase (lower : String) : Bool :=
  echoPhrases.any (fun x => hasSubstr x.data lower.data)

/-- The two-phase sanitizer's confidence computation:
`typeof o.confidence === "string" ? o.confidence.trim().toLowerCase() : "low"`. -/
def confP2 (o : Json) : String :=
  match getProp o "confidence" with
  | JsVal.val (Json.str s) => jsToLower (jsTrim s)
  | _ => "low"

/-- Per-entry gates of the two-phase variant's sanitizer: instruction
echoes, literal junk and the semantic blacklist are rejected; a
non-string confidence defaults to `low` directly and a string one is
trimmed, lowercased and defaulted. -/
def sanitizeEntryP2 (o : Json) : Option CleanEntry :=
  if jsTruthy o && typeofObject o then
    if nameOf o = "" then none
    else if hasEchoPhrase (jsToLower (nameOf o)) then none
    else if isLiteralJunk (nameOf o) then none
    else if bannedNames.contains (jsToLower (nameOf o)) then none
    else some (CleanEntry.mk (nameOf o)
      (if confidenceTriple.contains (confP2 o) then confP2 o else "low"))
  else none

def cleanObjectsPhase2 (objects : List Json) : List CleanEntry :=
  cleanGoWith sanitizeEntryP2 [] objects

/-- A sanitized entry viewed again as the JavaScript object
`\x7b name, confidence \x7d` it is in the source. -/
def entryToJson (e : CleanEntry) : Json :=
  Json.obj [("name", Json.str e.name), ("confidence", Json.str e.confidence)]

/-! ### `extractObjectsFromText` (objects.js lines 832-859, final variant) -/

/-- `t.toLowerCase().includes("json")`. -/
def mentionsJson (t : String) : Bool := hasSubstr "json".data (jsToLower t).data

/-- `replace(/^[-–—]\s*/, "")`: strip one leading dash bullet and the
whitespace after it. -/
def stripDash (cs : List Char) : List Char :=
  match cs with
  | c :: rest =>
    if c = '-' || c = Char.ofNat 8211 || c = Char.ofNat 8212 then rest.dropWhile isJsWs
    else cs
  | [] => cs

/-- `replace(/\.$/, "")`: strip one trailing dot. -/
def stripDot (cs : List Char) : List Char :=
  match cs.reverse with
  | c :: r => if c = '.' then r.reverse else cs
  | [] => cs

/-- The per-fragment transform of the fallback loop:
`s.replace(/^[-–—]\s*/, "").replace(/\.$/, "").trim()`. -/
def fragStrip (cs : List Char) : List Char :=
  trimList (stripDot (stripDash cs))

/-- The per-fragment gates of the fallback loop: drop empties,
over-long fragments, fragments mentioning `json` and the junk tokens. -/
def fragClean (cs : List Char) : Option String :=
  if (fragStrip cs).isEmpty then none
  else if (fragStrip cs).length > 40 then none
  else if mentionsJson (String.mk (fragStrip cs)) then none
  else if String.mk (fragStrip cs) = "..." ∨ jsToLower (String.mk (fragStrip cs)) = "object" then none
  else some (String.mk (fragStrip cs))

/-- The raw fragment list: whitespace runs collapsed to one space,
bullet characters to commas, split on `,`/`;`/`:`/newline (newlines
were just collapsed away), trimmed, empties dropped. -/
def rawFragments (s : String) : List String :=
  let collapsed := collapseWs s.data
  let commas := collapsed.map (fun c =>
    if c = Char.ofNat 8226 || c = Char.ofNat 183 then ',' else c)
  ((splitOnAny [',', ';', ':', '\n'] commas []).map
    (fun cs => String.mk (trimList cs))).filter (fun t => !t.isEmpty)

/-- The de-duplicated fragment names of the fallback path:
fragments, per-fragment gates, case-insensitive first-wins de-dup. -/
def fallbackUniq (s : String) : List String :=
  dedupByGo jsToLower [] ((rawFragments s).filterMap (fun t => fragClean t.data))

/-- `extractObjectsFromText`: the de-duplicated fragment names,
capped at 40, each with confidence `low`. -/
def extractObjectsFromText : JsVal → List CleanEntry
  | JsVal.val (Json.str s) =>
    if s.isEmpty then []
    else ((fallbackUniq s).take 40).map (fun n => CleanEntry.mk n "low")
  | _ => []

/-! ### The assembler (objects.js lines 677-710, final variant) -/

/-- `ai?.description ?? ai?.result ?? ai?.response ??
(typeof ai === "string" ? ai : "")`. -/
def resolveDescription (ai : JsVal) : JsVal :=
  coalesce (getPropV ai "description") <|
  coalesce (getPropV ai "result") <|
  coalesce (getPropV ai "response") <|
  match ai with
  | JsVal.val (Json.str _) => ai
  | _ => JsVal.val (Json.str "")

structure AssembleResult where
  ok : Bool
  caption : String
  objects : List CleanEntry
deriving DecidableEq, Repr

/-- The response assembly after the model call: resolve the
description, try the recovery parser, and either return the cleaned
payload or fall back to text extraction.  The JSON-only metadata
fields (`model`, `imageFingerprint`, `note`, `raw`) carry no logic and
are omitted. -/
def assembleFromAi (ai : JsVal) : AssembleResult :=
  match tryParseJsonFromText (resolveDescription ai) with
  | some parsed =>
    if jsTruthy parsed then
      match getProp parsed "objects" with
      | JsVal.val (Json.arr xs) =>
        AssembleResult.mk true
          (match getProp parsed "caption" with
           | JsVal.val (Json.str c) => jsTrim c
           | _ => "")
          (cleanObjects xs)
      | _ => AssembleResult.mk true "" (extractObjectsFromText (resolveDescription ai))
    else AssembleResult.mk true "" (extractObjectsFromText (resolveDescription ai))
  | none => AssembleResult.mk true "" (extractObjectsFromText (resolveDescription ai))

/-! ### Definitions taken from the specification's words -/

/-- Modelled from the spec: "structurally valid" means the parsed
value is an object whose `objects` field is array-like.  Used to
compare the specified ladder with the implemented one. -/
def specStructurallyValid (v : Json) : Bool :=
  match v with
  | Json.obj _ =>
    match getProp v "objects" with
    | JsVal.val (Json.arr _) => true
    | _ => false
  | _ => false

/-- Modelled from the spec: the first non-nullish value in a priority
list, used to restate the envelope scan as an ordered search. -/
def firstNonNullish : List JsVal → Option JsVal
  | [] => none
  | v :: vs => if nullish v then firstNonNullish vs else some v

/-- Modelled from the spec: an ordered fallback chain of strategies,
evaluated left to right with short-circuit on the first success (a
sole remaining strategy supplies the result outright, successful or
not). -/
def firstSuccess : List (Option Json) → Option Json
  | [] => none
  | [o] => o
  | o :: os =>
    match o with
    | some v => some v
    | none => firstSuccess os

/-- Characterization of the shared guard
`if (!text || typeof text !== "string")` of `tryParseJsonFromText`
and `extractObjectsFromText`: the input is usable only when it is a
non-empty string. -/
def usableText : JsVal → Bool
  | JsVal.val (Json.str s) => !s.isEmpty
  | _ => false

/-! ### Test fixtures for witnesses and counterexamples -/

def mkEntryJson (n c : String) : Json :=
  Json.obj [("name", Json.str n), ("confidence", Json.str c)]

def craneList : List Json := [mkEntryJson "Crane" "high", mkEntryJson "crane" "low"]

def dogList : List Json := [mkEntryJson "pes" "high"]

def sampleMaybe : Json := mkEntryJson " pes " "maybe"

/-! ### Helper lemmas: trimming -/

theorem dropWhile_head_false {p : Char → Bool} {l : List Char} {c : Char} {cs : List Char}
    (h : l.dropWhile p = c :: cs) : p c = false := by
  induction l with
  | nil => simp [List.dropWhile] at h
  | cons a as ih =>
    rw [List.dropWhile_cons] at h
    by_cases hp : p a
    · rw [if_pos hp] at h
      exact ih h
    · rw [if_neg hp] at h
      cases h
      simpa using hp

theorem dropTrailingWs_cons (c : Char) (cs : List Char) :
    dropTrailingWs (c :: cs) =
      match dropTrailingWs cs with
      | [] => if isJsWs c then [] else [c]
      | d :: ds => c :: d :: ds := rfl

theorem dropTrailingWs_idem (l : List Char) :
    dropTrailingWs (dropTrailingWs l) = dropTrailingWs l := by
  induction l with
  | nil => rfl
  | cons c cs ih =>
    cases h : dropTrailingWs cs with
    | nil =>
      rw [dropTrailingWs_cons, h]
      by_cases hw : isJsWs c
      · rw [if_pos hw]
        rfl
      · rw [if_neg hw]
        show dropTrailingWs [c] = [c]
        rw [dropTrailingWs_cons, show dropTrailingWs [] = [] from rfl, if_neg hw]
    | cons d ds =>
      rw [h] at ih
      rw [dropTrailingWs_cons, h]
      show dropTrailingWs (c :: d :: ds) = c :: d :: ds
      rw [dropTrailingWs_cons, ih]

theorem dropTrailingWs_head (c : Char) (cs : List Char) :
    dropTrailingWs (c :: cs) = [] ∨ ∃ ds, dropTrailingWs (c :: cs) = c :: ds := by
  cases h : dropTrailingWs cs with
  | nil =>
    by_cases hw : isJsWs c
    · left; rw [dropTrailingWs_cons, h, if_pos hw]
    · right; exact ⟨[], by rw [dropTrailingWs_cons, h, if_neg hw]⟩
  | cons d ds => right; exact ⟨d :: ds, by rw [dropTrailingWs_cons, h]⟩

theorem trimList_idem (l : List Char) : trimList (trimList l) = trimList l := by
  unfold trimList
  cases h : l.dropWhile isJsWs with
  | nil => rfl
  | cons c cs =>
    have hc : isJsWs c = false := dropWhile_head_false h
    rcases dropTrailingWs_head c cs with h2 | ⟨ds, h2⟩
    · rw [h2]; rfl
    · rw [h2, List.dropWhile_cons, if_neg (by simp [hc])]
      have h3 := dropTrailingWs_idem (c :: cs)
      rw [h2] at h3
      exact h3

theorem jsTrim_idem (s : String) : jsTrim (jsTrim s) = jsTrim s :=
  congrArg String.mk (trimList_idem s.data)

theorem jsTrim_strFieldTrimmed (o : Json) (k : String) :
    jsTrim (strFieldTrimmed o k) = strFieldTrimmed o k := by
  unfold strFieldTrimmed
  cases getProp o k with
  | undef => rfl
  | val j => cases j with
    | str s => exact jsTrim_idem s
    | null => rfl
    | bool b => rfl
    | num n => rfl
    | arr xs => rfl
    | obj kvs => rfl

/-! ### Helper lemmas: the first-wins de-dup loop -/

theorem dedupByGo_decomp {α : Type} (key : α → String) :
    ∀ (l out : List α), ∃ d, dedupByGo key out l = out ++ d ∧ d.Sublist l ∧
      ∀ y ∈ d, ∀ z ∈ out, key z ≠ key y := by
  intro l
  induction l with
  | nil => intro out; exact ⟨[], by simp [dedupByGo], List.nil_sublist _, by simp⟩
  | cons x xs ih =>
    intro out
    by_cases h : out.any (fun y => key y == key x)
    · obtain ⟨d, hd, hsub, hnew⟩ := ih out
      refine ⟨d, ?_, hsub.cons x, hnew⟩
      simpa [dedupByGo, h] using hd
    · obtain ⟨d, hd, hsub, hnew⟩ := ih (out ++ [x])
      refine ⟨x :: d, ?_, hsub.cons₂ x, ?_⟩
      · simp only [dedupByGo, h, if_false, Bool.false_eq_true]
        rw [hd]
        simp
      · intro y hy z hz
        rcases List.mem_cons.mp hy with rfl | hy
        · intro he
          exact h (List.any_eq_true.mpr ⟨z, hz, by simp [he]⟩)
        · exact hnew y hy z (List.mem_append_left _ hz)

theorem dedupByGo_pairwise {α : Type} (key : α → String) :
    ∀ (l out : List α), out.Pairwise (fun a b => key a ≠ key b) →
      (dedupByGo key out l).Pairwise (fun a b => key a ≠ key b) := by
  intro l
  induction l with
  | nil => intro out h; simpa [dedupByGo] using h
  | cons x xs ih =>
    intro out h
    by_cases hx : out.any (fun y => key y == key x)
    · simpa [dedupByGo, hx] using ih out h
    · have hp : (out ++ [x]).Pairwise (fun a b => key a ≠ key b) := by
        rw [List.pairwise_append]
        refine ⟨h, by simp, ?_⟩
        intro a ha b hb
        simp only [List.mem_singleton] at hb
        subst hb
        intro he
        exact hx (List.any_eq_true.mpr ⟨a, ha, by simp [he]⟩)
      simpa [dedupByGo, hx] using ih (out ++ [x]) hp

theorem dedupByGo_complete {α : Type} (key : α → String) :
    ∀ (l out : List α) (x : α), x ∈ l →
      ∃ y, y ∈ dedupByGo key out l ∧ key y = key x := by
  intro l
  induction l with
  | nil => intro out x hx; cases hx
  | cons a as ih =>
    intro out x hx
    by_cases ha : out.any (fun y => key y == key a)
    · rcases List.mem_cons.mp hx with rfl | hx
      · obtain ⟨z, hz, hzk⟩ := List.any_eq_true.mp ha
        obtain ⟨d, hd, _, _⟩ := dedupByGo_decomp key as out
        refine ⟨z, ?_, by simpa using hzk⟩
        rw [show dedupByGo key out (x :: as) = dedupByGo key out as by simp [dedupByGo, ha], hd]
        exact List.mem_append_left _ hz
      · obtain ⟨y, hy, hk⟩ := ih out x hx
        refine ⟨y, ?_, hk⟩
        rw [show dedupByGo key out (a :: as) = dedupByGo key out as by simp [dedupByGo, ha]]
        exact hy
    · rcases List.mem_cons.mp hx with rfl | hx
      · obtain ⟨d, hd, _, _⟩ := dedupByGo_decomp key as (out ++ [x])
        refine ⟨x, ?_, rfl⟩
        rw [show dedupByGo key out (x :: as) = dedupByGo key (out ++ [x]) as by
          simp [dedupByGo, ha], hd]
        exact List.mem_append_left _ (List.mem_append_right _ (by simp))
      · obtain ⟨y, hy, hk⟩ := ih (out ++ [a]) x hx
        refine ⟨y, ?_, hk⟩
        rw [show dedupByGo key out (a :: as) = dedupByGo key (out ++ [a]) as by
          simp [dedupByGo, ha]]
        exact hy

theorem dedupByGo_firstwins {α : Type} (key : α → String) :
    ∀ (l out : List α) (y : α), y ∈ dedupByGo key out l →
      y ∈ out ∨ ((∀ z ∈ out, key z ≠ key y) ∧
        l.find? (fun x => key x == key y) = some y) := by
  intro l
  induction l with
  | nil => intro out y hy; left; simpa [dedupByGo] using hy
  | cons a as ih =>
    intro out y hy
    by_cases ha : out.any (fun z => key z == key a)
    · rw [show dedupByGo key out (a :: as) = dedupByGo key out as by simp [dedupByGo, ha]] at hy
      rcases ih out y hy with h | ⟨hnew, hfind⟩
      · left; exact h
      · right
        refine ⟨hnew, ?_⟩
        rw [List.find?_cons_of_neg]
        · exact hfind
        · obtain ⟨z, hz, hzk⟩ := List.any_eq_true.mp ha
          have hza : key z = key a := by simpa using hzk
          simp only [beq_iff_eq]
          rw [← hza]
          exact hnew z hz
    · rw [show dedupByGo key out (a :: as) = dedupByGo key (out ++ [a]) as by
        simp [dedupByGo, ha]] at hy
      rcases ih (out ++ [a]) y hy with h | ⟨hnew, hfind⟩
      · rcases List.mem_append.mp h with h | h
        · left; exact h
        · simp only [List.mem_singleton] at h
          subst h
          right
          constructor
          · intro z hz he
            exact absurd (List.any_eq_true.mpr ⟨z, hz, by simp [he]⟩) ha
          · exact List.find?_cons_of_pos _ (by simp)
      · right
        refine ⟨fun z hz => hnew z (List.mem_append_left _ hz), ?_⟩
        rw [List.find?_cons_of_neg]
        · exact hfind
        · have h2 := hnew a (List.mem_append_right _ (by simp))
          simp only [beq_iff_eq]
          exact h2

theorem dedupByGo_all_new {α : Type} (key : α → String) :
    ∀ (l out : List α), l.Pairwise (fun a b => key a ≠ key b) →
      (∀ x ∈ l, ∀ z ∈ out, key z ≠ key x) →
      dedupByGo key out l = out ++ l := by
  intro l
  induction l with
  | nil => intro out _ _; simp [dedupByGo]
  | cons a as ih =>
    intro out hp hn
    have ha : out.any (fun y => key y == key a) = false := by
      rw [List.any_eq_false]
      intro z hz
      simp only [beq_iff_eq]
      exact hn a (by simp) z hz
    rw [show dedupByGo key out (a :: as) = dedupByGo key (out ++ [a]) as by
      simp [dedupByGo, ha]]
    rw [ih (out ++ [a]) (List.Pairwise.of_cons hp) ?_]
    · simp
    · intro x hx z hz
      rcases List.mem_append.mp hz with hz | hz
      · exact hn x (by simp [hx]) z hz
      · simp only [List.mem_singleton] at hz
        subst hz
        exact (List.pairwise_cons.mp hp).1 x hx

/-! ### Helper lemmas: the sanitizer loop -/

theorem cleanGoWith_eq (f : Json → Option CleanEntry) :
    ∀ (l : List Json) (out : List CleanEntry),
      cleanGoWith f out l = dedupByGo entryKey out (l.filterMap f) := by
  intro l
  induction l with
  | nil => intro out; simp [cleanGoWith, dedupByGo]
  | cons o os ih =>
    intro out
    cases hf : f o with
    | none => simp [cleanGoWith, hf, List.filterMap_cons, ih]
    | some e =>
      by_cases h : out.any (fun y => entryKey y == entryKey e)
      · simp [cleanGoWith, hf, h, List.filterMap_cons, dedupByGo, ih]
      · simp [cleanGoWith, hf, h, List.filterMap_cons, dedupByGo, ih]

theorem normalizeConfidence_mem (v : JsVal) :
    normalizeConfidence v ∈ confidenceTriple := by
  unfold normalizeConfidence
  by_cases h : confidenceTriple.contains (jsToLower (confRaw v))
  · rw [if_pos h]
    exact List.mem_of_elem_eq_true h
  · rw [if_neg h]
    decide

theorem confidenceTriple_stable {c : String} (h : c ∈ confidenceTriple) :
    jsTrim c = c ∧ jsToLower c = c := by
  simp only [confidenceTriple, List.mem_cons, List.mem_singleton, List.not_mem_nil,
    or_false] at h
  rcases h with rfl | rfl | rfl
  · exact ⟨by decide, by decide⟩
  · exact ⟨by decide, by decide⟩
  · exact ⟨by decide, by decide⟩

theorem sanitizeEntry_some {o : Json} {e : CleanEntry} (h : sanitizeEntry o = some e) :
    jsTrim e.name = e.name ∧ e.name ≠ "" ∧ isLiteralJunk e.name = false ∧
    isAbstract (jsToLower e.name) = false ∧ e.confidence ∈ confidenceTriple := by
  unfold sanitizeEntry at h
  by_cases h1 : jsTruthy o && typeofObject o
  case neg => rw [if_neg h1] at h; cases h
  rw [if_pos h1] at h
  by_cases h2 : nameOf o = ""
  case pos => rw [if_pos h2] at h; cases h
  rw [if_neg h2] at h
  by_cases h3 : isLiteralJunk (nameOf o) = true
  case pos => rw [if_pos h3] at h; cases h
  rw [if_neg h3] at h
  by_cases h4 : isAbstract (jsToLower (nameOf o)) = true
  case pos => rw [if_pos h4] at h; cases h
  rw [if_neg h4] at h
  cases h
  refine ⟨?_, ?_, ?_, ?_, ?_⟩
  · exact jsTrim_strFieldTrimmed o "name"
  · exact h2
  · show isLiteralJunk (nameOf o) = false
    simpa using h3
  · show isAbstract (jsToLower (nameOf o)) = false
    simpa using h4
  · exact normalizeConfidence_mem _

theorem sanitizeEntryP2_some {o : Json} {e : CleanEntry} (h : sanitizeEntryP2 o = some e) :
    isLiteralJunk e.name = false ∧ bannedNames.contains (jsToLower e.name) = false ∧
    hasEchoPhrase (jsToLower e.name) = false := by
  unfold sanitizeEntryP2 at h
  by_cases h1 : jsTruthy o && typeofObject o
  case neg => rw [if_neg h1] at h; cases h
  rw [if_pos h1] at h
  by_cases h2 : nameOf o = ""
  case pos => rw [if_pos h2] at h; cases h
  rw [if_neg h2] at h
  by_cases h3 : hasEchoPhrase (jsToLower (nameOf o)) = true
  case pos => rw [if_pos h3] at h; cases h
  rw [if_neg h3] at h
  by_cases h4 : isLiteralJunk (nameOf o) = true
  case pos => rw [if_pos h4] at h; cases h
  rw [if_neg h4] at h
  by_cases h5 : bannedNames.contains (jsToLower (nameOf o)) = true
  case pos => rw [if_pos h5] at h; cases h
  rw [if_neg h5] at h
  cases h
  refine ⟨?_, ?_, ?_⟩
  · show isLiteralJunk (nameOf o) = false
    simpa using h4
  · show bannedNames.contains (jsToLower (nameOf o)) = false
    simpa using h5
  · show hasEchoPhrase (jsToLower (nameOf o)) = false
    simpa using h3

theorem cleanObjects_mem_good {l : List Json} {e : CleanEntry} (h : e ∈ cleanObjects l) :
    jsTrim e.name = e.name ∧ e.name ≠ "" ∧ isLiteralJunk e.name = false ∧
    isAbstract (jsToLower e.name) = false ∧ e.confidence ∈ confidenceTriple := by
  unfold cleanObjects at h
  rw [cleanGoWith_eq] at h
  obtain ⟨d, hd, hsub, _⟩ := dedupByGo_decomp entryKey (l.filterMap sanitizeEntry) []
  rw [hd] at h
  simp only [List.nil_append] at h
  obtain ⟨o, _, ho⟩ := List.mem_filterMap.mp (hsub.subset h)
  exact sanitizeEntry_some ho

theorem cleanObjects_pairwise (l : List Json) :
    (cleanObjects l).Pairwise (fun a b => entryKey a ≠ entryKey b) := by
  unfold cleanObjects
  rw [cleanGoWith_eq]
  exact dedupByGo_pairwise entryKey _ [] (by simp)

theorem sanitizeEntry_roundtrip {e : CleanEntry}
    (h1 : jsTrim e.name = e.name) (h2 : e.name ≠ "")
    (h3 : isLiteralJunk e.name = false) (h4 : isAbstract (jsToLower e.name) = false)
    (h5 : e.confidence ∈ confidenceTriple) :
    sanitizeEntry (entryToJson e) = some e := by
  obtain ⟨ht, hl⟩ := confidenceTriple_stable h5
  have hname : nameOf (entryToJson e) = e.name := by
    show jsTrim e.name = e.name
    exact h1
  have hconf : normalizeConfidence (getProp (entryToJson e) "confidence") = e.confidence := by
    show normalizeConfidence (JsVal.val (Json.str e.confidence)) = e.confidence
    unfold normalizeConfidence
    rw [show confRaw (JsVal.val (Json.str e.confidence)) = e.confidence from ht]
    rw [hl, if_pos (List.elem_eq_true_of_mem h5)]
  unfold sanitizeEntry
  rw [hname, hconf]
  rw [if_pos (by rfl), if_neg h2, if_neg (by simp [h3]), if_neg (by simp [h4])]

theorem filterMap_some_id {α : Type} (f : α → Option α) :
    ∀ (l : List α), (∀ x ∈ l, f x = some x) → l.filterMap f = l := by
  intro l
  induction l with
  | nil => intro _; simp
  | cons a as ih =>
    intro h
    rw [List.filterMap_cons, h a (by simp), ih (fun x hx => h x (by simp [hx]))]

theorem fragClean_some {cs : List Char} {nm : String} (h : fragClean cs = some nm) :
    nm ≠ "" ∧ nm.length ≤ 40 ∧ mentionsJson nm = false ∧
    nm ≠ "..." ∧ jsToLower nm ≠ "object" := by
  unfold fragClean at h
  by_cases h1 : (fragStrip cs).isEmpty = true
  case pos => rw [if_pos h1] at h; cases h
  rw [if_neg h1] at h
  by_cases h2 : (fragStrip cs).length > 40
  case pos => rw [if_pos h2] at h; cases h
  rw [if_neg h2] at h
  by_cases h3 : mentionsJson (String.mk (fragStrip cs)) = true
  case pos => rw [if_pos h3] at h; cases h
  rw [if_neg h3] at h
  by_cases h4 : String.mk (fragStrip cs) = "..." ∨ jsToLower (String.mk (fragStrip cs)) = "object"
  case pos => rw [if_pos h4] at h; cases h
  rw [if_neg h4] at h
  cases h
  push_neg at h4
  refine ⟨?_, ?_, by simpa using h3, h4.1, h4.2⟩
  · intro he
    apply h1
    have hdata : fragStrip cs = ([] : List Char) := congrArg String.data he
    rw [hdata]
    rfl
  · show (fragStrip cs).length ≤ 40
    omega

theorem tryParseBody_ext (f g : String → Option Json) (text : String) :
    tryParseBody f text = tryParseBody g text := by
  unfold tryParseBody
  cases h : jsonParse (jsTrim text) with
  | some v => simp [h]
  | none => simp [h]

/-! ### The claims -/

/-- Claim C1, amended: the recovery parser is exactly the
left-to-right short-circuit chain of its four strategies — direct
parse, quoted-string unwrap, escape repair, brace extraction — so the
strategies are applied in strict order, the first whose `JSON.parse`
succeeds wins and its value is returned whatever its structure (no
rung filters on the `objects` field; that check is the caller's, which
on failure moves to the plain-text fallback rather than resuming the
ladder), and the parser returns null exactly when every strategy's
parse fails. -/
theorem c1_strategy_ladder (text : String) :
    tryParseCore text = firstSuccess [strategyDirect text,
      strategyQuoted tryParseCore text, strategyEscape text, strategyBrace text] ∧
    (tryParseCore text = none ↔
      strategyDirect text = none ∧ strategyQuoted tryParseCore text = none ∧
      strategyEscape text = none ∧ strategyBrace text = none) := by
  have hmain : tryParseCore text = firstSuccess [strategyDirect text,
      strategyQuoted tryParseCore text, strategyEscape text, strategyBrace text] := by
    show tryParseBody (tryParseAux text.length) text = _
    unfold tryParseBody strategyDirect strategyQuoted strategyEscape
      strategyBrace hasEscapeMarkers
    cases h : jsonParse (jsTrim text) with
    | some v => simp [h, firstSuccess]
    | none => simp [h, firstSuccess]
  refine ⟨hmain, ?_⟩
  rw [hmain]
  cases h1 : strategyDirect text with
  | some v => simp [firstSuccess, h1]
  | none =>
    cases h2 : strategyQuoted tryParseCore text with
    | some v => simp [firstSuccess, h1, h2]
    | none =>
      cases h3 : strategyEscape text with
      | some v => simp [firstSuccess, h1, h2, h3]
      | none =>
        cases h4 : strategyBrace text with
        | some v => simp [firstSuccess, h1, h2, h3, h4]
        | none => simp [firstSuccess, h1, h2, h3, h4]

/-- Claim C1 counterexample: on input `"42"` the direct parse succeeds
with the bare number `42`, which is not structurally valid, and the
parser returns it rather than treating the strategy as failed and
eventually returning null as the claim requires. -/
theorem c1_counterexample :
    tryParseJsonFromText (JsVal.val (Json.str "42")) = some (Json.num "42") ∧
    specStructurallyValid (Json.num "42") = false :=
  ⟨rfl, rfl⟩

/-- Claim C2, amended: the assembler always reports `ok: true` — an
unparsable blob and an empty blob alike are answered with the
plain-text fallback result.  `ok: false` responses exist only on the
request-validation and exception paths outside the assembly step. -/
theorem c2_assembler_always_ok (ai : JsVal) : (assembleFromAi ai).ok = true := by
  unfold assembleFromAi
  split
  · split
    · split <;> rfl
    · rfl
  · rfl

/-- Claim C2 counterexample: on an empty envelope no blob is resolved
(the description defaults to the empty string), yet the assembler
still answers `ok: true` with an empty object list, where the claim
requires `ok: false` exactly in this situation. -/
theorem c2_counterexample :
    resolveDescription (JsVal.val (Json.obj [])) = JsVal.val (Json.str "") ∧
    (assembleFromAi (JsVal.val (Json.obj []))).ok = true ∧
    (assembleFromAi (JsVal.val (Json.obj []))).objects = [] :=
  ⟨rfl, rfl, rfl⟩

/-- Claim C3, amended: the blob is the first non-nullish value of the
fields `description`, `result`, `response` in that order (the spec's
list `response`, `result`, `output`, `output_text`, `text`, `content`,
`choices[0].message.content` does not match the code), falling back to
the envelope itself when it is a string and to the empty string
otherwise; any non-nullish value wins, empty or not. -/
theorem c3_scan_order (ai : JsVal) :
    resolveDescription ai =
      (firstNonNullish [getPropV ai "description", getPropV ai "result",
        getPropV ai "response"]).getD
        (match ai with
         | JsVal.val (Json.str _) => ai
         | _ => JsVal.val (Json.str "")) := by
  unfold resolveDescription coalesce
  by_cases h1 : nullish (getPropV ai "description") = true <;>
    by_cases h2 : nullish (getPropV ai "result") = true <;>
      by_cases h3 : nullish (getPropV ai "response") = true <;>
        simp [h1, h2, h3, firstNonNullish]

/-- Claim C3 counterexample: with both `response: "A"` and
`result: "B"` present, the claimed order (`response` first) would pick
`"A"`, but the code picks `result` before `response` and returns
`"B"`. -/
theorem c3_counterexample :
    resolveDescription (JsVal.val (Json.obj
      [("response", Json.str "A"), ("result", Json.str "B")])) =
      JsVal.val (Json.str "B") ∧
    JsVal.val (Json.str "B") ≠ JsVal.val (Json.str "A") :=
  ⟨rfl, by simp⟩

/-- Claim C4: for an entry passing the name gates, the sanitizer never
rejects it for its confidence; the confidence is trimmed (when a
string, else emptied), lowercased, and defaulted to `low` whenever the
normalized value is not exactly `low`, `medium` or `high`. -/
theorem c4_confidence_normalized (o : Json)
    (h1 : jsTruthy o = true) (h2 : typeofObject o = true)
    (h3 : nameOf o ≠ "") (h4 : isLiteralJunk (nameOf o) = false)
    (h5 : isAbstract (jsToLower (nameOf o)) = false) :
    sanitizeEntry o = some (CleanEntry.mk (nameOf o)
      (normalizeConfidence (getProp o "confidence"))) ∧
    normalizeConfidence (getProp o "confidence") ∈ confidenceTriple ∧
    (∀ s : String, confidenceTriple.contains (jsToLower (jsTrim s)) = false →
      normalizeConfidence (JsVal.val (Json.str s)) = "low") := by
  refine ⟨?_, normalizeConfidence_mem _, ?_⟩
  · unfold sanitizeEntry
    rw [if_pos (by rw [h1, h2]; rfl), if_neg h3, if_neg (by simp [h4]),
      if_neg (by simp [h5])]
  · intro s hs
    unfold normalizeConfidence
    rw [if_neg ?hcond]
    case hcond =>
      show ¬(confidenceTriple.contains (jsToLower (jsTrim s)) = true)
      rw [hs]
      exact Bool.false_ne_true

/-- Witness for C4: the entry `\x7b name: " pes ", confidence: "maybe" \x7d`
is kept, with confidence defaulted to `low`. -/
theorem c4_witness :
    sanitizeEntry sampleMaybe = some (CleanEntry.mk (nameOf sampleMaybe)
      (normalizeConfidence (getProp sampleMaybe "confidence"))) ∧
    normalizeConfidence (getProp sampleMaybe "confidence") ∈ confidenceTriple ∧
    (∀ s : String, confidenceTriple.contains (jsToLower (jsTrim s)) = false →
      normalizeConfidence (JsVal.val (Json.str s)) = "low") :=
  c4_confidence_normalized sampleMaybe rfl rfl (by decide) rfl rfl

/-- Claim C5: the sanitizer's output has pairwise distinct
case-insensitive names, is (in order) a sublist of the per-entry
accepted list, covers every accepted name, and each kept entry is the
first accepted entry of its case-insensitive name. -/
theorem c5_dedup_invariant (l : List Json) :
    (cleanObjects l).Pairwise (fun a b => entryKey a ≠ entryKey b) ∧
    (cleanObjects l).Sublist (l.filterMap sanitizeEntry) ∧
    (∀ e ∈ l.filterMap sanitizeEntry, ∃ e2 ∈ cleanObjects l, entryKey e2 = entryKey e) ∧
    (∀ e2 ∈ cleanObjects l,
      (l.filterMap sanitizeEntry).find? (fun e => entryKey e == entryKey e2) = some e2) := by
  refine ⟨cleanObjects_pairwise l, ?_, ?_, ?_⟩
  · unfold cleanObjects
    rw [cleanGoWith_eq]
    obtain ⟨d, hd, hsub, _⟩ := dedupByGo_decomp entryKey (l.filterMap sanitizeEntry) []
    rw [hd]
    simpa using hsub
  · intro e he
    unfold cleanObjects
    rw [cleanGoWith_eq]
    obtain ⟨y, hy, hk⟩ := dedupByGo_complete entryKey (l.filterMap sanitizeEntry) [] e he
    exact ⟨y, hy, hk⟩
  · intro e2 he2
    unfold cleanObjects at he2
    rw [cleanGoWith_eq] at he2
    rcases dedupByGo_firstwins entryKey (l.filterMap sanitizeEntry) [] e2 he2 with h | ⟨_, hfind⟩
    · cases h
    · exact hfind

/-- Witness for C5 on the spec's own example: `Crane` then `crane`
collapse to the single first entry `Crane`. -/
theorem c5_witness :
    (cleanObjects craneList).Pairwise (fun a b => entryKey a ≠ entryKey b) ∧
    (craneList.filterMap sanitizeEntry).find?
      (fun e => entryKey e == entryKey (CleanEntry.mk "Crane" "high")) =
      some (CleanEntry.mk "Crane" "high") :=
  ⟨(c5_dedup_invariant craneList).1,
   (c5_dedup_invariant craneList).2.2.2 (CleanEntry.mk "Crane" "high") (by decide)⟩

/-- Claim C6, amended: the final sanitizer drops literal-junk names
(`...`, `xxx`, `object`) and the too-abstract set, and those names
never appear in its output; the instruction-echo filter and the
semantic blacklist (e.g. `pláž`) exist only in the two-phase variant's
sanitizer, whose output never contains junk, blacklisted or echo
names. -/
theorem c6_rejections (l : List Json) :
    (∀ e ∈ cleanObjects l,
      isLiteralJunk e.name = false ∧ isAbstract (jsToLower e.name) = false) ∧
    (∀ e ∈ cleanObjectsPhase2 l,
      isLiteralJunk e.name = false ∧ bannedNames.contains (jsToLower e.name) = false ∧
      hasEchoPhrase (jsToLower e.name) = false) := by
  constructor
  · intro e he
    have h := cleanObjects_mem_good he
    exact ⟨h.2.2.1, h.2.2.2.1⟩
  · intro e he
    unfold cleanObjectsPhase2 at he
    rw [cleanGoWith_eq] at he
    obtain ⟨d, hd, hsub, _⟩ := dedupByGo_decomp entryKey (l.filterMap sanitizeEntryP2) []
    rw [hd] at he
    simp only [List.nil_append] at he
    obtain ⟨o, _, ho⟩ := List.mem_filterMap.mp (hsub.subset he)
    exact sanitizeEntryP2_some ho

/-- Witness for C6 at a surviving entry `pes`. -/
theorem c6_witness :
    (isLiteralJunk (CleanEntry.mk "pes" "high").name = false ∧
      isAbstract (jsToLower (CleanEntry.mk "pes" "high").name) = false) ∧
    (isLiteralJunk (CleanEntry.mk "pes" "high").name = false ∧
      bannedNames.contains (jsToLower (CleanEntry.mk "pes" "high").name) = false ∧
      hasEchoPhrase (jsToLower (CleanEntry.mk "pes" "high").name) = false) :=
  ⟨(c6_rejections dogList).1 (CleanEntry.mk "pes" "high") (by decide),
   (c6_rejections dogList).2 (CleanEntry.mk "pes" "high") (by decide)⟩

/-- Claim C6 counterexample: the final sanitizer keeps an entry named
`pláž`, so the semantic blacklist is not applied by "the sanitizer" of
the final variant, contrary to the claim. -/
theorem c6_counterexample :
    cleanObjects [mkEntryJson "pláž" "high"] = [CleanEntry.mk "pláž" "high"] := by
  decide

/-- Claim C7, amended: the fallback extractor splits on commas,
semicolons, colons and bullet markers — line breaks are collapsed to
spaces beforehand and therefore separate nothing — trims fragments,
drops empties, fragments over 40 characters, fragments mentioning
`json` and the fallback junk tokens (`...` and `object`; `xxx` is not
one of them here), de-duplicates case-insensitively, caps the output
at 40 and gives every survivor confidence `low`. -/
theorem c7_fallback_bounds (v : JsVal) :
    (extractObjectsFromText v).length ≤ 40 ∧
    (extractObjectsFromText v).Pairwise (fun a b => entryKey a ≠ entryKey b) ∧
    ∀ e ∈ extractObjectsFromText v,
      e.confidence = "low" ∧ e.name ≠ "" ∧ e.name.length ≤ 40 ∧
      mentionsJson e.name = false ∧ e.name ≠ "..." ∧ jsToLower e.name ≠ "object" := by
  cases v with
  | undef => simp [extractObjectsFromText]
  | val j =>
    cases j with
    | null => simp [extractObjectsFromText]
    | bool b => simp [extractObjectsFromText]
    | num n => simp [extractObjectsFromText]
    | arr xs => simp [extractObjectsFromText]
    | obj kvs => simp [extractObjectsFromText]
    | str s =>
      by_cases hs : s.isEmpty = true
      · simp [extractObjectsFromText, hs]
      · have hout : extractObjectsFromText (JsVal.val (Json.str s)) =
            ((fallbackUniq s).take 40).map (fun n => CleanEntry.mk n "low") := by
          simp [extractObjectsFromText, hs]
        rw [hout]
        refine ⟨?_, ?_, ?_⟩
        · rw [List.length_map, List.length_take]
          exact Nat.min_le_left _ _
        · rw [List.pairwise_map]
          have hpu := dedupByGo_pairwise jsToLower
            ((rawFragments s).filterMap (fun t => fragClean t.data)) [] (by simp)
          exact List.Pairwise.sublist (List.take_sublist 40 _) hpu
        · intro e he
          obtain ⟨n, hn, rfl⟩ := List.mem_map.mp he
          have hnu : n ∈ fallbackUniq s := List.mem_of_mem_take hn
          obtain ⟨d, hd, hsub, _⟩ := dedupByGo_decomp jsToLower
            ((rawFragments s).filterMap (fun t => fragClean t.data)) []
          have hnc : n ∈ (rawFragments s).filterMap (fun t => fragClean t.data) := by
            apply hsub.subset
            have hde : fallbackUniq s = d := by
              unfold fallbackUniq
              rw [hd]
              simp
            rwa [hde] at hnu
          obtain ⟨t, _, ht⟩ := List.mem_filterMap.mp hnc
          have hp := fragClean_some ht
          exact ⟨rfl, hp.1, hp.2.1, hp.2.2.1, hp.2.2.2.1, hp.2.2.2.2⟩

/-- Witness for C7 at the two-fragment input `pes, kočka`. -/
theorem c7_witness :
    (CleanEntry.mk "pes" "low").confidence = "low" ∧
    (CleanEntry.mk "pes" "low").name ≠ "" ∧
    (CleanEntry.mk "pes" "low").name.length ≤ 40 ∧
    mentionsJson (CleanEntry.mk "pes" "low").name = false ∧
    (CleanEntry.mk "pes" "low").name ≠ "..." ∧
    jsToLower (CleanEntry.mk "pes" "low").name ≠ "object" :=
  (c7_fallback_bounds (JsVal.val (Json.str "pes, kočka"))).2.2
    (CleanEntry.mk "pes" "low") (by decide)

/-- Claim C7 counterexample: the claim says line breaks are split
points, so `a\nb` would yield the fragments `a` and `b`; the code
collapses the line break to a space before splitting and yields the
single fragment `a b`. -/
theorem c7_counterexample :
    extractObjectsFromText (JsVal.val (Json.str "a\nb")) = [CleanEntry.mk "a b" "low"] ∧
    [CleanEntry.mk "a b" "low"] ≠ [CleanEntry.mk "a" "low", CleanEntry.mk "b" "low"] :=
  ⟨by decide, by decide⟩

/-- Claim C8: the recovery parser terminates on every input and the
recursion of the quoted-string unwrap is depth-bounded: the result is
the same for every recursion budget of at least one level.  (In fact
the recursive branch is unreachable, because it re-parses the very
string whose direct parse has just failed.) -/
theorem c8_bounded_recursion (text : String) (fuel : Nat) (h : 1 ≤ fuel) :
    tryParseAux fuel text = tryParseAux 1 text := by
  obtain ⟨n, rfl⟩ : ∃ n, fuel = n + 1 := ⟨fuel - 1, by omega⟩
  show tryParseBody (tryParseAux n) text = tryParseBody (tryParseAux 0) text
  exact tryParseBody_ext _ _ text

/-- Witness for C8 at the spec's defensive depth 5 on a
quote-wrapped adversarial input. -/
theorem c8_witness :
    tryParseAux 5 "\"\\\"...\\\"\"" = tryParseAux 1 "\"\\\"...\\\"\"" :=
  c8_bounded_recursion "\"\\\"...\\\"\"" 5 (by decide)

/-- Claim C9: the sanitizer is idempotent — sanitizing its own output
(read back as the JavaScript objects it produces) returns that output
unchanged. -/
theorem c9_sanitizer_idempotent (l : List Json) :
    cleanObjects ((cleanObjects l).map entryToJson) = cleanObjects l := by
  have hgood : ∀ e ∈ cleanObjects l, sanitizeEntry (entryToJson e) = some e := by
    intro e he
    have h := cleanObjects_mem_good he
    exact sanitizeEntry_roundtrip h.1 h.2.1 h.2.2.1 h.2.2.2.1 h.2.2.2.2
  have hdef : cleanObjects ((cleanObjects l).map entryToJson) =
      dedupByGo entryKey [] (((cleanObjects l).map entryToJson).filterMap sanitizeEntry) :=
    cleanGoWith_eq sanitizeEntry ((cleanObjects l).map entryToJson) []
  rw [hdef, List.filterMap_map,
    show List.filterMap (sanitizeEntry ∘ entryToJson) (cleanObjects l) = cleanObjects l from
      filterMap_some_id (sanitizeEntry ∘ entryToJson) (cleanObjects l)
        (fun x hx => hgood x hx),
    dedupByGo_all_new entryKey (cleanObjects l) [] (cleanObjects_pairwise l)
      (fun x _ z hz => absurd hz (List.not_mem_nil z))]
  simp

/-- Claim C10: for every non-usable input — any non-string value,
`undefined`, `null`, or the empty string — the recovery parser
returns null and the fallback extractor returns the empty list; both
functions are total Lean definitions, so neither can throw. -/
theorem c10_guards (v : JsVal) (h : usableText v = false) :
    tryParseJsonFromText v = none ∧ extractObjectsFromText v = [] := by
  cases v with
  | undef => exact ⟨rfl, rfl⟩
  | val j =>
    cases j with
    | str s =>
      have hs : s.isEmpty = true := by
        unfold usableText at h
        simpa using h
      exact ⟨by simp [tryParseJsonFromText, hs], by simp [extractObjectsFromText, hs]⟩
    | null => exact ⟨rfl, rfl⟩
    | bool b => exact ⟨rfl, rfl⟩
    | num n => exact ⟨rfl, rfl⟩
    | arr xs => exact ⟨rfl, rfl⟩
    | obj kvs => exact ⟨rfl, rfl⟩

/-- Witness for C10 at the `undefined` input. -/
theorem c10_witness :
    tryParseJsonFromText JsVal.undef = none ∧ extractObjectsFromText JsVal.undef = [] :=
  c10_guards JsVal.undef rfl

end Vibe
